import Mathlib

/-!
Verification of the pycliques2 core: a shallow embedding of the
`dominated`, `cliques` and `coaffinations` modules, together with
theorems settling the specification claims.

A finite graph is embedded as its vertex list (the fixed iteration
order of the underlying adjacency store) plus a boolean adjacency
function; only adjacency between listed vertices is ever consulted.
External collaborators (maximal-clique enumeration, all-pairs
shortest-path lengths) are modelled at their documented interface.
-/

namespace Pyc

/-- A finite graph: vertex list in iteration order plus adjacency. -/
structure Graph (V : Type) where
  verts : List V
  adj : V → V → Bool

/-- `graph.order()`: the number of vertices. -/
def Graph.order {V : Type} (g : Graph V) : Nat := g.verts.length

/-- `graph[v]` as a list: the neighbors of `v` among the graph's vertices. -/
def neighborsOf {V : Type} [DecidableEq V] (g : Graph V) (v : V) : List V :=
  g.verts.filter (fun u => g.adj v u)

/-- `closed_neighborhood(graph, v)`: the neighbors of `v` plus `v` itself. -/
def closed_neighborhood {V : Type} [DecidableEq V] (g : Graph V) (v : V) : Finset V :=
  insert v (neighborsOf g v).toFinset

/-- `dominates(graph, v, w)`: `w`'s closed neighborhood is a subset of `v`'s. -/
def dominates {V : Type} [DecidableEq V] (g : Graph V) (v w : V) : Bool :=
  decide (closed_neighborhood g w ⊆ closed_neighborhood g v)

/-- The first vertex `u ≠ v` (in iteration order) that dominates `v`;
this is the dominator reported by `is_dominated_vertex(graph, v, True)`. -/
def findDominator {V : Type} [DecidableEq V] (g : Graph V) (v : V) : Option V :=
  g.verts.find? (fun u => decide (u ≠ v) && dominates g u v)

/-- `is_dominated_vertex(graph, v)`: some other vertex dominates `v`. -/
def is_dominated_vertex {V : Type} [DecidableEq V] (g : Graph V) (v : V) : Bool :=
  (findDominator g v).isSome

/-- `find_dominated_vertex(graph)`: first dominated vertex, if any. -/
def find_dominated_vertex {V : Type} [DecidableEq V] (g : Graph V) : Option V :=
  g.verts.find? (fun v => is_dominated_vertex g v)

/-- `graph.remove_node(x)` on a copy. -/
def removeNode {V : Type} [DecidableEq V] (g : Graph V) (x : V) : Graph V :=
  { verts := g.verts.erase x, adj := g.adj }

/-- `remove_dominated_vertex(graph)`. -/
def remove_dominated_vertex {V : Type} [DecidableEq V] (g : Graph V) : Graph V :=
  match find_dominated_vertex g with
  | none => g
  | some x => removeNode g x

/-- One step of the dictionary accumulation inside `twin_classes`:
append `v` to the entry keyed by its neighborhood signature, creating
the entry at the end when the key is new (insertion order of a dict). -/
def twinInsert {V : Type} [DecidableEq V] (sig : Finset V) (v : V) :
    List (Finset V × List V) → List (Finset V × List V)
  | [] => [(sig, [v])]
  | (s, vs) :: rest =>
    if s = sig then (s, vs ++ [v]) :: rest else (s, vs) :: twinInsert sig v rest

/-- The `neighborhoods` dictionary of `twin_classes`, as an association
list from closed-neighborhood signature to the vertices carrying it. -/
def twinTable {V : Type} [DecidableEq V] (g : Graph V) : List (Finset V × List V) :=
  g.verts.foldl (fun acc v => twinInsert (closed_neighborhood g v) v acc) []

/-- `twin_classes(graph)`: the dictionary's value lists, in first-seen order. -/
def twin_classes {V : Type} [DecidableEq V] (g : Graph V) : List (List V) :=
  (twinTable g).map Prod.snd

/-- The keep test of `pared_graph` for one representative: keep it when it
is not dominated, or when its first-found dominator has the same closed
neighborhood (i.e. the dominator is a true twin). -/
def keepRep {V : Type} [DecidableEq V] (g : Graph V) (v : V) : Bool :=
  match findDominator g v with
  | none => true
  | some u => decide (closed_neighborhood g v = closed_neighborhood g u)

/-- `pared_graph(graph)`: representatives (`aclass[0]` of each twin class)
that pass the keep test, as an induced subgraph in the original order. -/
def pared_graph {V : Type} [DecidableEq V] (g : Graph V) : Graph V :=
  let keep := ((twin_classes g).filterMap List.head?).filter (keepRep g)
  { verts := g.verts.filter (fun v => decide (v ∈ keep)), adj := g.adj }

/-- The `while` loop of `pared_index`, with explicit fuel; the Python loop
runs at most `order + 1` iterations because each non-final iteration
strictly decreases the vertex count. -/
def paredIndexAux {V : Type} [DecidableEq V] : Nat → Graph V → Nat → Nat × Graph V
  | 0, g, pi => (pi, g)
  | fuel + 1, g, pi =>
    let g2 := pared_graph g
    if g.order = g2.order then (pi, g2) else paredIndexAux fuel g2 (pi + 1)

/-- `pared_index(graph)`. -/
def pared_index {V : Type} [DecidableEq V] (g : Graph V) : Nat :=
  (paredIndexAux (g.order + 1) g 0).1

/-- The `while` loop of `completely_pared_graph`, with explicit fuel. -/
def completelyPareAux {V : Type} [DecidableEq V] : Nat → Graph V → Graph V
  | 0, g => g
  | fuel + 1, g =>
    let g2 := remove_dominated_vertex g
    if g.order = g2.order then g2 else completelyPareAux fuel g2

/-- `completely_pared_graph(graph)`. -/
def completely_pared_graph {V : Type} [DecidableEq V] (g : Graph V) : Graph V :=
  completelyPareAux (g.order + 1) g

/-- `is_dismantlable(graph)`: the fully pared graph has exactly one vertex. -/
def is_dismantlable {V : Type} [DecidableEq V] (g : Graph V) : Bool :=
  decide ((completely_pared_graph g).order = 1)

/-- Build a graph from a vertex list and an undirected edge list. -/
def graphOfEdges (vs : List Nat) (es : List (Nat × Nat)) : Graph Nat :=
  { verts := vs,
    adj := fun u v => es.any (fun e => (e.1 = u && e.2 = v) || (e.1 = v && e.2 = u)) }

/-- The path on 4 vertices. -/
def path4 : Graph Nat := graphOfEdges [0, 1, 2, 3] [(0, 1), (1, 2), (2, 3)]

/-- The cycle on 4 vertices. -/
def cycle4 : Graph Nat := graphOfEdges [0, 1, 2, 3] [(0, 1), (1, 2), (2, 3), (0, 3)]

/-- The path on 3 vertices. -/
def path3 : Graph Nat := graphOfEdges [0, 1, 2] [(0, 1), (1, 2)]

/-- A graph on which `pared_graph`'s first-dominator shortcut diverges from
its documented behavior: `0` and `1` are true twins, and `2` strictly
dominates both of them. -/
def gTwinDom : Graph Nat := graphOfEdges [0, 1, 2, 3] [(0, 1), (0, 2), (1, 2), (2, 3)]


/-- A set of vertices that are pairwise adjacent in `g`. -/
def isClique {V : Type} [DecidableEq V] (g : Graph V) (c : Finset V) : Prop :=
  ∀ u ∈ c, ∀ v ∈ c, u ≠ v → g.adj u v = true

instance {V : Type} [DecidableEq V] (g : Graph V) (c : Finset V) :
    Decidable (isClique g c) := by
  unfold isClique; infer_instance

/-- A maximal clique of `g`: a nonempty clique of vertices of `g` that no
further vertex of `g` extends.  (The external clique enumerator yields
exactly these, each exactly once.) -/
def isMaximalClique {V : Type} [DecidableEq V] (g : Graph V) (c : Finset V) : Prop :=
  c.Nonempty ∧ (∀ v ∈ c, v ∈ g.verts) ∧ isClique g c ∧
    (∀ w ∈ g.verts, w ∉ c → ¬ isClique g (insert w c))

instance {V : Type} [DecidableEq V] (g : Graph V) (c : Finset V) :
    Decidable (isMaximalClique g c) := by
  unfold isMaximalClique; infer_instance

/-- `nx.find_cliques(graph)`, modelled at its interface: an enumeration of
exactly the maximal cliques of the graph, each appearing once, in an
unspecified order.  (The candidates run over all subsets of the vertex
list, and the maximality filter keeps exactly the maximal cliques.) -/
def findCliques {V : Type} [DecidableEq V] (g : Graph V) : List (Finset V) :=
  (g.verts.sublists.map List.toFinset).filter (fun c => decide (isMaximalClique g c))

/-- `len(cliques) > bound`, with `none` standing for the default
`math.inf` bound (never exceeded). -/
def boundHit : Option Nat → Nat → Bool
  | none, _ => false
  | some b, n => decide (b < n)

/-- The accumulation loop of `clique_graph`: append each enumerated clique,
aborting with `none` as soon as the accumulator's size exceeds the bound. -/
def cliqueAccum {V : Type} (bound : Option Nat) :
    List (Finset V) → List (Finset V) → Option (List (Finset V))
  | [], acc => some acc
  | q :: rest, acc =>
    let acc2 := acc ++ [q]
    if boundHit bound acc2.length then none else cliqueAccum bound rest acc2

/-- `clique_graph(graph, bound)`: `none` is the abort sentinel; otherwise
the graph on the accumulated cliques, adjacent iff distinct with a
nonempty intersection. -/
def clique_graph {V : Type} [DecidableEq V] (g : Graph V) (bound : Option Nat) :
    Option (Graph (Finset V)) :=
  match cliqueAccum bound (findCliques g) [] with
  | none => none
  | some cs =>
    some { verts := cs,
           adj := fun c1 c2 => decide (c1 ≠ c2) && decide ((c1 ∩ c2).Nonempty) }

/-- `CoaffinePair`: a graph bundled with a vertex mapping. -/
structure CoaffinePair (V : Type) where
  graph : Graph V
  coaffination : V → V

/-- The `CoaffinePair` registration of `clique_graph`: run the plain
builder on the underlying graph, then map each derived clique `q` to the
clique of vertex-wise images of its members. -/
def clique_graph_pair {V : Type} [DecidableEq V] (p : CoaffinePair V)
    (bound : Option Nat) : Option (CoaffinePair (Finset V)) :=
  match clique_graph p.graph bound with
  | none => none
  | some kg => some ⟨kg, fun q => q.image p.coaffination⟩

/-- `f` is an automorphism of `g`: it maps vertices to vertices,
bijectively, preserving adjacency in both directions.  This is what the
external isomorphism search yields on a self-match. -/
def isAutomorphism {V : Type} [DecidableEq V] (g : Graph V) (f : V → V) : Prop :=
  (∀ v ∈ g.verts, f v ∈ g.verts) ∧
  (∀ u ∈ g.verts, ∀ v ∈ g.verts, f u = f v → u = v) ∧
  (∀ w ∈ g.verts, ∃ v ∈ g.verts, f v = w) ∧
  (∀ u ∈ g.verts, ∀ v ∈ g.verts, g.adj u v = g.adj (f u) (f v))

instance {V : Type} [DecidableEq V] (g : Graph V) (f : V → V) :
    Decidable (isAutomorphism g f) := by
  unfold isAutomorphism; infer_instance

/-- The ball of radius `n` around `s`: vertices reachable from `s` in at
most `n` adjacency steps. -/
def ball {V : Type} [DecidableEq V] (g : Graph V) (s : V) : Nat → Finset V
  | 0 => {s}
  | n + 1 => ball g s n ∪ (ball g s n).biUnion (fun v => (neighborsOf g v).toFinset)

/-- `nx.all_pairs_shortest_path_length`, modelled at its interface: the
length of a shortest path from `s` to `t`, absent when `t` is
unreachable from `s`.  A shortest path repeats no vertex, so the search
radius `g.order` is never the binding constraint. -/
def dist {V : Type} [DecidableEq V] (g : Graph V) (s t : V) : Option Nat :=
  (List.range (g.order + 1)).find? (fun d => decide (t ∈ ball g s d))

/-- The displacement test of `coaffinations` for one vertex: the recorded
distance from `v` to `f v` exists and is at least `k`. -/
def distAtLeast {V : Type} [DecidableEq V] (g : Graph V) (k : Nat) (f : V → V)
    (v : V) : Bool :=
  match dist g v (f v) with
  | some d => decide (k ≤ d)
  | none => false

/-- An automorphism qualifies as a coaffination: every vertex is displaced
by distance at least `k`. -/
def qualifies {V : Type} [DecidableEq V] (g : Graph V) (k : Nat) (f : V → V) : Bool :=
  g.verts.all (distAtLeast g k f)

/-- The inner `for v in graph` loop of `coaffinations`: scan the vertices,
failing on a missing distance entry (Python's `KeyError`), answering
`false` at the first vertex displaced by less than `k` (Python's
`break`), and `true` when the scan completes (the `else` clause). -/
def checkAuto {V : Type} [DecidableEq V] (g : Graph V) (k : Nat) (f : V → V) :
    List V → Except Unit Bool
  | [] => Except.ok true
  | v :: rest =>
    match dist g v (f v) with
    | none => Except.error ()
    | some d => if d < k then Except.ok false else checkAuto g k f rest

/-- `coaffinations(graph, k)` as a filter over the automorphism sequence
`autos` produced by the external oracle, drained eagerly: yield exactly
the automorphisms passing the displacement scan, in order, propagating a
missing-key failure. -/
def coaffinationsL {V : Type} [DecidableEq V] (g : Graph V) (k : Nat) :
    List (V → V) → Except Unit (List (V → V))
  | [] => Except.ok []
  | f :: rest =>
    match checkAuto g k f g.verts with
    | Except.error e => Except.error e
    | Except.ok false => coaffinationsL g k rest
    | Except.ok true =>
      match coaffinationsL g k rest with
      | Except.error e => Except.error e
      | Except.ok l => Except.ok (f :: l)

/-- Connectedness, stated through the reachability balls: every vertex is
within `g.order` steps of every other (a connected graph has diameter
below its order, so this is the standard notion). -/
def connectedG {V : Type} [DecidableEq V] (g : Graph V) : Prop :=
  ∀ v ∈ g.verts, ∀ w ∈ g.verts, w ∈ ball g v g.order

instance {V : Type} [DecidableEq V] (g : Graph V) : Decidable (connectedG g) := by
  unfold connectedG; infer_instance

/-- The double rotation of the 4-cycle: the coaffination {0→2,1→3,2→0,3→1}. -/
def rot2 : Nat → Nat := fun v => (v + 2) % 4

/-- The 4-cycle bundled with its double rotation. -/
def c4pair : CoaffinePair Nat := ⟨cycle4, rot2⟩

/-- The clique graph of `c4pair`, extracted from the builder's result. -/
def k4pair : CoaffinePair (Finset Nat) :=
  (clique_graph_pair c4pair none).getD ⟨⟨[], fun _ _ => false⟩, id⟩

/-- The clique graph of the 3-path, extracted from the builder's result. -/
def kp3 : Graph (Finset Nat) :=
  (clique_graph path3 none).getD ⟨[], fun _ _ => false⟩


/-! ### Twin classes: accumulator invariants -/

theorem twinInsert_mem {V : Type} [DecidableEq V] (sig : Finset V) (v x : V)
    (acc : List (Finset V × List V)) :
    (∃ p ∈ twinInsert sig v acc, x ∈ p.2) ↔ (∃ p ∈ acc, x ∈ p.2) ∨ x = v := by
  induction acc with
  | nil =>
    constructor
    · rintro ⟨p, hp, hx⟩
      rcases List.mem_singleton.mp hp with rfl
      exact Or.inr (List.mem_singleton.mp hx)
    · rintro (⟨p, hp, _⟩ | rfl)
      · exact absurd hp (List.not_mem_nil p)
      · exact ⟨(sig, [x]), List.mem_singleton_self _, List.mem_singleton_self _⟩
  | cons hd tl ih =>
    obtain ⟨s, vs⟩ := hd
    by_cases hs : s = sig
    · subst hs
      simp only [twinInsert, if_pos rfl]
      constructor
      · rintro ⟨p, hp, hx⟩
        rcases List.mem_cons.mp hp with rfl | h
        · rcases List.mem_append.mp hx with h2 | h2
          · exact Or.inl ⟨(s, vs), List.mem_cons_self _ _, h2⟩
          · exact Or.inr (List.mem_singleton.mp h2)
        · exact Or.inl ⟨p, List.mem_cons_of_mem _ h, hx⟩
      · rintro (⟨p, hp, hx⟩ | rfl)
        · rcases List.mem_cons.mp hp with rfl | h
          · exact ⟨(s, vs ++ [v]), List.mem_cons_self _ _, List.mem_append_left _ hx⟩
          · exact ⟨p, List.mem_cons_of_mem _ h, hx⟩
        · exact ⟨(s, vs ++ [x]), List.mem_cons_self _ _,
            List.mem_append_right _ (List.mem_singleton_self _)⟩
    · simp only [twinInsert, if_neg hs]
      constructor
      · rintro ⟨p, hp, hx⟩
        rcases List.mem_cons.mp hp with rfl | h
        · exact Or.inl ⟨(s, vs), List.mem_cons_self _ _, hx⟩
        · rcases ih.mp ⟨p, h, hx⟩ with ⟨q, hq, hxq⟩ | h2
          · exact Or.inl ⟨q, List.mem_cons_of_mem _ hq, hxq⟩
          · exact Or.inr h2
      · rintro (⟨p, hp, hx⟩ | h)
        · rcases List.mem_cons.mp hp with rfl | h
          · exact ⟨(s, vs), List.mem_cons_self _ _, hx⟩
          · obtain ⟨q, hq, hxq⟩ := ih.mpr (Or.inl ⟨p, h, hx⟩)
            exact ⟨q, List.mem_cons_of_mem _ hq, hxq⟩
        · obtain ⟨q, hq, hxq⟩ := ih.mpr (Or.inr h)
          exact ⟨q, List.mem_cons_of_mem _ hq, hxq⟩

theorem twinInsert_ne_nil {V : Type} [DecidableEq V] (sig : Finset V) (v : V)
    (acc : List (Finset V × List V)) (h : ∀ p ∈ acc, p.2 ≠ []) :
    ∀ p ∈ twinInsert sig v acc, p.2 ≠ [] := by
  induction acc with
  | nil =>
    intro p hp
    rcases List.mem_singleton.mp hp with rfl
    simp
  | cons hd tl ih =>
    obtain ⟨s, vs⟩ := hd
    by_cases hs : s = sig
    · subst hs
      intro p hp
      simp only [twinInsert, if_pos rfl] at hp
      rcases List.mem_cons.mp hp with rfl | h1
      · simp
      · exact h p (List.mem_cons_of_mem _ h1)
    · intro p hp
      simp only [twinInsert, if_neg hs] at hp
      rcases List.mem_cons.mp hp with rfl | h1
      · exact h (s, vs) (List.mem_cons_self _ _)
      · exact ih (fun q hq => h q (List.mem_cons_of_mem _ hq)) p h1

theorem twinInsert_sig {V : Type} [DecidableEq V] (g : Graph V) (v : V)
    (acc : List (Finset V × List V))
    (h : ∀ p ∈ acc, ∀ x ∈ p.2, closed_neighborhood g x = p.1) :
    ∀ p ∈ twinInsert (closed_neighborhood g v) v acc,
      ∀ x ∈ p.2, closed_neighborhood g x = p.1 := by
  induction acc with
  | nil =>
    intro p hp
    rcases List.mem_singleton.mp hp with rfl
    intro x hx
    rcases List.mem_singleton.mp hx with rfl
    rfl
  | cons hd tl ih =>
    obtain ⟨s, vs⟩ := hd
    by_cases hs : s = closed_neighborhood g v
    · subst hs
      intro p hp
      simp only [twinInsert, if_pos rfl] at hp
      rcases List.mem_cons.mp hp with rfl | h1
      · intro x hx
        rcases List.mem_append.mp hx with h2 | h2
        · exact h (_, vs) (List.mem_cons_self _ _) x h2
        · rcases List.mem_singleton.mp h2 with rfl
          rfl
      · exact h p (List.mem_cons_of_mem _ h1)
    · intro p hp
      simp only [twinInsert, if_neg hs] at hp
      rcases List.mem_cons.mp hp with rfl | h1
      · exact fun x hx => h (s, vs) (List.mem_cons_self _ _) x hx
      · exact ih (fun q hq => h q (List.mem_cons_of_mem _ hq)) p h1

theorem twinInsert_fst {V : Type} [DecidableEq V] (sig : Finset V) (v : V)
    (acc : List (Finset V × List V)) :
    ∀ p ∈ twinInsert sig v acc, p.1 = sig ∨ p.1 ∈ acc.map Prod.fst := by
  induction acc with
  | nil =>
    intro p hp
    rcases List.mem_singleton.mp hp with rfl
    exact Or.inl rfl
  | cons hd tl ih =>
    obtain ⟨s, vs⟩ := hd
    by_cases hs : s = sig
    · subst hs
      intro p hp
      simp only [twinInsert, if_pos rfl] at hp
      rcases List.mem_cons.mp hp with rfl | h1
      · exact Or.inl rfl
      · exact Or.inr (List.mem_map.mpr ⟨p, List.mem_cons_of_mem _ h1, rfl⟩)
    · intro p hp
      simp only [twinInsert, if_neg hs] at hp
      rcases List.mem_cons.mp hp with rfl | h1
      · exact Or.inr (List.mem_map.mpr ⟨(s, vs), List.mem_cons_self _ _, rfl⟩)
      · rcases ih p h1 with h2 | h2
        · exact Or.inl h2
        · obtain ⟨q, hq, hfst⟩ := List.mem_map.mp h2
          exact Or.inr (List.mem_map.mpr ⟨q, List.mem_cons_of_mem _ hq, hfst⟩)

theorem foldl_twin_inv {V : Type} [DecidableEq V] (g : Graph V)
    (P : List (Finset V × List V) → Prop)
    (hstep : ∀ acc v, P acc → P (twinInsert (closed_neighborhood g v) v acc)) :
    ∀ (l : List V) (acc : List (Finset V × List V)), P acc →
      P (l.foldl (fun acc v => twinInsert (closed_neighborhood g v) v acc) acc) := by
  intro l
  induction l with
  | nil => exact fun acc h => h
  | cons v l ih => exact fun acc h => ih _ (hstep acc v h)

theorem foldl_twin_mem {V : Type} [DecidableEq V] (g : Graph V) (x : V) :
    ∀ (l : List V) (acc : List (Finset V × List V)),
      ((∃ p ∈ l.foldl (fun acc v => twinInsert (closed_neighborhood g v) v acc) acc,
          x ∈ p.2) ↔ (∃ p ∈ acc, x ∈ p.2) ∨ x ∈ l) := by
  intro l
  induction l with
  | nil =>
    intro acc
    simp
  | cons v l ih =>
    intro acc
    rw [List.foldl_cons, ih, twinInsert_mem, List.mem_cons]
    exact or_assoc

theorem twinTable_mem {V : Type} [DecidableEq V] (g : Graph V) (x : V) :
    (∃ p ∈ twinTable g, x ∈ p.2) ↔ x ∈ g.verts := by
  rw [twinTable, foldl_twin_mem]
  simp

theorem twinInsert_pairwise {V : Type} [DecidableEq V] (sig : Finset V) (v : V)
    (acc : List (Finset V × List V)) (h : acc.Pairwise (fun p q => p.1 ≠ q.1)) :
    (twinInsert sig v acc).Pairwise (fun p q => p.1 ≠ q.1) := by
  induction acc with
  | nil =>
    simp [twinInsert]
  | cons hd tl ih =>
    obtain ⟨s, vs⟩ := hd
    rcases List.pairwise_cons.mp h with ⟨hhd, htl⟩
    by_cases hs : s = sig
    · subst hs
      simp only [twinInsert, if_pos rfl]
      exact List.pairwise_cons.mpr ⟨hhd, htl⟩
    · simp only [twinInsert, if_neg hs]
      refine List.pairwise_cons.mpr ⟨?_, ih htl⟩
      intro q hq
      rcases twinInsert_fst sig v tl q hq with h1 | h1
      · rw [h1]
        exact hs
      · obtain ⟨p, hp, hfst⟩ := List.mem_map.mp h1
        exact hfst ▸ hhd p hp

theorem twinTable_ne_nil {V : Type} [DecidableEq V] (g : Graph V) :
    ∀ p ∈ twinTable g, p.2 ≠ [] :=
  foldl_twin_inv g (fun acc => ∀ p ∈ acc, p.2 ≠ [])
    (fun acc v h => twinInsert_ne_nil _ v acc h) g.verts []
    (fun p hp => absurd hp (List.not_mem_nil p))

theorem twinTable_sig {V : Type} [DecidableEq V] (g : Graph V) :
    ∀ p ∈ twinTable g, ∀ x ∈ p.2, closed_neighborhood g x = p.1 :=
  foldl_twin_inv g (fun acc => ∀ p ∈ acc, ∀ x ∈ p.2, closed_neighborhood g x = p.1)
    (fun acc v h => twinInsert_sig g v acc h) g.verts []
    (fun p hp => absurd hp (List.not_mem_nil p))

theorem twinTable_pairwise {V : Type} [DecidableEq V] (g : Graph V) :
    (twinTable g).Pairwise (fun p q => p.1 ≠ q.1) :=
  foldl_twin_inv g (fun acc => acc.Pairwise (fun p q => p.1 ≠ q.1))
    (fun acc v h => twinInsert_pairwise _ v acc h) g.verts []
    (List.Pairwise.nil)

/-- Claim C8: for every graph, the classes returned by `twin_classes`
partition the vertex set: every class is nonempty, a vertex lies in some
class exactly when it is a vertex of the graph, and distinct classes are
pairwise disjoint. -/
theorem C8_twin_classes_partition {V : Type} [DecidableEq V] (g : Graph V) :
    (∀ c ∈ twin_classes g, c ≠ []) ∧
    (∀ v, v ∈ g.verts ↔ ∃ c ∈ twin_classes g, v ∈ c) ∧
    (twin_classes g).Pairwise (fun c1 c2 => ∀ v, v ∈ c1 → v ∉ c2) := by
  refine ⟨?_, ?_, ?_⟩
  · intro c hc
    obtain ⟨p, hp, rfl⟩ := List.mem_map.mp hc
    exact twinTable_ne_nil g p hp
  · intro v
    rw [← twinTable_mem g v]
    constructor
    · rintro ⟨p, hp, hv⟩
      exact ⟨p.2, List.mem_map.mpr ⟨p, hp, rfl⟩, hv⟩
    · rintro ⟨c, hc, hv⟩
      obtain ⟨p, hp, rfl⟩ := List.mem_map.mp hc
      exact ⟨p, hp, hv⟩
  · unfold twin_classes
    rw [List.pairwise_map]
    refine List.Pairwise.imp_of_mem ?_ (twinTable_pairwise g)
    intro p q hp hq hne v hvp hvq
    exact hne ((twinTable_sig g p hp v hvp).symm.trans (twinTable_sig g q hq v hvq))

/-- Claim C1 (code evaluation at the failing input): in `gTwinDom` the
vertices `0` and `1` are true twins and `2` strictly dominates `0` from
outside `0`'s twin class, yet `pared_graph` keeps the representative `0`,
because the first dominator found in iteration order (`1`) happens to be a
twin and no further dominator is examined. -/
theorem C1_pared_graph_eval :
    twin_classes gTwinDom = [[0, 1], [2], [3]] ∧
    dominates gTwinDom 2 0 = true ∧
    closed_neighborhood gTwinDom 2 ≠ closed_neighborhood gTwinDom 0 ∧
    is_dominated_vertex gTwinDom 0 = true ∧
    (pared_graph gTwinDom).verts = [0, 2] := by decide

/-! ### Removal of a dominated vertex and the fixed-point loops -/

/-- Claim C9: `remove_dominated_vertex` removes exactly the vertex found by
`find_dominated_vertex` (a dominated vertex of the graph) when one
exists, returns the graph unchanged when none is dominated, and returns
an empty graph on an empty graph without faulting. -/
theorem C9_remove_dominated_vertex {V : Type} [DecidableEq V] (g : Graph V)
    (hnd : g.verts.Nodup) :
    (∀ x, find_dominated_vertex g = some x →
      x ∈ g.verts ∧ is_dominated_vertex g x = true ∧
      (∀ v, v ∈ (remove_dominated_vertex g).verts ↔ v ∈ g.verts ∧ v ≠ x) ∧
      (remove_dominated_vertex g).adj = g.adj) ∧
    (find_dominated_vertex g = none → remove_dominated_vertex g = g) ∧
    (g.verts = [] → (remove_dominated_vertex g).verts = []) := by
  refine ⟨?_, ?_, ?_⟩
  · intro x hx
    refine ⟨List.mem_of_find?_eq_some hx, List.find?_some hx, ?_, ?_⟩
    · intro v
      unfold remove_dominated_vertex
      rw [hx]
      show v ∈ g.verts.erase x ↔ v ∈ g.verts ∧ v ≠ x
      rw [hnd.mem_erase_iff]
      exact and_comm
    · unfold remove_dominated_vertex
      rw [hx]
      rfl
  · intro h
    unfold remove_dominated_vertex
    rw [h]
  · intro h
    have : find_dominated_vertex g = none := by
      unfold find_dominated_vertex
      rw [h]
      rfl
    unfold remove_dominated_vertex
    rw [this]
    exact h

theorem find_dominated_single {V : Type} [DecidableEq V] (g : Graph V) (v : V)
    (h : g.verts = [v]) : find_dominated_vertex g = none := by
  unfold find_dominated_vertex is_dominated_vertex findDominator
  rw [h]
  rw [List.find?_eq_none]
  intro x hx
  rcases List.mem_singleton.mp hx with rfl
  simp [List.find?_cons]

theorem remove_dominated_single {V : Type} [DecidableEq V] (g : Graph V) (v : V)
    (h : g.verts = [v]) : remove_dominated_vertex g = g := by
  unfold remove_dominated_vertex
  rw [find_dominated_single g v h]

theorem completely_pared_single {V : Type} [DecidableEq V] (g : Graph V) (v : V)
    (h : g.verts = [v]) : completely_pared_graph g = g := by
  have horder : g.order = 1 := by rw [Graph.order, h]; rfl
  unfold completely_pared_graph
  rw [horder]
  show completelyPareAux 2 g = g
  unfold completelyPareAux
  rw [remove_dominated_single g v h]
  simp

/-- Claim C6: `is_dismantlable` holds exactly when the completely pared
graph has one vertex; it holds on every one-vertex graph, holds on the
path with 4 vertices and fails on the cycle with 4 vertices. -/
theorem C6_is_dismantlable {V : Type} [DecidableEq V] (g : Graph V) (v : V) :
    (is_dismantlable g = true ↔ (completely_pared_graph g).order = 1) ∧
    (g.verts = [v] → is_dismantlable g = true) ∧
    is_dismantlable path4 = true ∧
    is_dismantlable cycle4 = false := by
  refine ⟨?_, ?_, by decide, by decide⟩
  · unfold is_dismantlable
    exact decide_eq_true_iff
  · intro h
    unfold is_dismantlable
    rw [completely_pared_single g v h, Graph.order, h]
    rfl

theorem C6_is_dismantlable_witness :
    is_dismantlable (graphOfEdges [7] []) = true :=
  (C6_is_dismantlable (graphOfEdges [7] []) 7).2.1 rfl

theorem pared_graph_order_le {V : Type} [DecidableEq V] (g : Graph V) :
    (pared_graph g).order ≤ g.order :=
  List.length_filter_le _ _

theorem remove_dominated_order_le {V : Type} [DecidableEq V] (g : Graph V) :
    (remove_dominated_vertex g).order ≤ g.order := by
  unfold remove_dominated_vertex
  cases h : find_dominated_vertex g with
  | none => exact le_refl _
  | some x => exact (List.erase_sublist x g.verts).length_le

theorem remove_dominated_fix {V : Type} [DecidableEq V] (g : Graph V)
    (h : (remove_dominated_vertex g).order = g.order) :
    remove_dominated_vertex g = g := by
  unfold remove_dominated_vertex at h ⊢
  cases hf : find_dominated_vertex g with
  | none => rfl
  | some x =>
    exfalso
    rw [hf] at h
    have hx : x ∈ g.verts := List.mem_of_find?_eq_some hf
    have h1 : (g.verts.erase x).length + 1 = g.verts.length :=
      List.length_erase_add_one hx
    have h2 : (g.verts.erase x).length = g.verts.length := h
    omega

theorem pared_graph_fix {V : Type} [DecidableEq V] (g : Graph V)
    (h : (pared_graph g).order = g.order) : pared_graph g = g := by
  have hv : (pared_graph g).verts = g.verts :=
    (List.filter_sublist _).eq_of_length h
  show Graph.mk (pared_graph g).verts (pared_graph g).adj = g
  rw [hv]
  rfl

theorem completelyPareAux_fuel {V : Type} [DecidableEq V] :
    ∀ (fuel fuel2 : Nat) (g : Graph V), g.order + 1 ≤ fuel → g.order + 1 ≤ fuel2 →
      completelyPareAux fuel g = completelyPareAux fuel2 g := by
  intro fuel
  induction fuel with
  | zero => intro fuel2 g h _; omega
  | succ f ih =>
    intro fuel2 g h h2
    cases fuel2 with
    | zero => omega
    | succ f2 =>
      show (let g2 := remove_dominated_vertex g;
            if g.order = g2.order then g2 else completelyPareAux f g2) =
           (let g2 := remove_dominated_vertex g;
            if g.order = g2.order then g2 else completelyPareAux f2 g2)
      by_cases heq : g.order = (remove_dominated_vertex g).order
      · simp only [if_pos heq]
      · simp only [if_neg heq]
        have hlt : (remove_dominated_vertex g).order < g.order :=
          lt_of_le_of_ne (remove_dominated_order_le g) (fun h3 => heq h3.symm)
        exact ih f2 _ (by omega) (by omega)

theorem completelyPareAux_fix {V : Type} [DecidableEq V] :
    ∀ (fuel : Nat) (g : Graph V), g.order + 1 ≤ fuel →
      remove_dominated_vertex (completelyPareAux fuel g) = completelyPareAux fuel g := by
  intro fuel
  induction fuel with
  | zero => intro g h; omega
  | succ f ih =>
    intro g h
    show remove_dominated_vertex
        (let g2 := remove_dominated_vertex g;
         if g.order = g2.order then g2 else completelyPareAux f g2) =
        (let g2 := remove_dominated_vertex g;
         if g.order = g2.order then g2 else completelyPareAux f g2)
    by_cases heq : g.order = (remove_dominated_vertex g).order
    · simp only [if_pos heq]
      have hfix : remove_dominated_vertex g = g := remove_dominated_fix g heq.symm
      rw [hfix]
      exact hfix
    · simp only [if_neg heq]
      have hlt : (remove_dominated_vertex g).order < g.order :=
        lt_of_le_of_ne (remove_dominated_order_le g) (fun h3 => heq h3.symm)
      exact ih (remove_dominated_vertex g) (by omega)

theorem paredIndexAux_fuel {V : Type} [DecidableEq V] :
    ∀ (fuel fuel2 : Nat) (g : Graph V) (pi : Nat),
      g.order + 1 ≤ fuel → g.order + 1 ≤ fuel2 →
      paredIndexAux fuel g pi = paredIndexAux fuel2 g pi := by
  intro fuel
  induction fuel with
  | zero => intro fuel2 g pi h _; omega
  | succ f ih =>
    intro fuel2 g pi h h2
    cases fuel2 with
    | zero => omega
    | succ f2 =>
      show (let g2 := pared_graph g;
            if g.order = g2.order then (pi, g2) else paredIndexAux f g2 (pi + 1)) =
           (let g2 := pared_graph g;
            if g.order = g2.order then (pi, g2) else paredIndexAux f2 g2 (pi + 1))
      by_cases heq : g.order = (pared_graph g).order
      · simp only [if_pos heq]
      · simp only [if_neg heq]
        have hlt : (pared_graph g).order < g.order :=
          lt_of_le_of_ne (pared_graph_order_le g) (fun h3 => heq h3.symm)
        exact ih f2 _ _ (by omega) (by omega)

/-- Claim C7: both fixed-point iterations are vertex-count nonincreasing in
each step and terminate: running the loop bodies with any fuel beyond the
vertex count plus one computes the same answer as the loop itself, and
the graph returned by `completely_pared_graph` is a genuine fixed point
of the reduction step. -/
theorem C7_fixed_point_termination {V : Type} [DecidableEq V] (g : Graph V) (k : Nat) :
    (pared_graph g).order ≤ g.order ∧
    (remove_dominated_vertex g).order ≤ g.order ∧
    completelyPareAux (g.order + 1 + k) g = completely_pared_graph g ∧
    paredIndexAux (g.order + 1 + k) g 0 = paredIndexAux (g.order + 1) g 0 ∧
    remove_dominated_vertex (completely_pared_graph g) = completely_pared_graph g := by
  refine ⟨pared_graph_order_le g, remove_dominated_order_le g, ?_, ?_, ?_⟩
  · exact completelyPareAux_fuel _ _ g (by omega) (by omega)
  · exact paredIndexAux_fuel _ _ g 0 (by omega) (by omega)
  · exact completelyPareAux_fix _ g (by omega)

theorem C9_remove_dominated_vertex_witness :
    (∀ x, find_dominated_vertex path4 = some x →
      x ∈ path4.verts ∧ is_dominated_vertex path4 x = true ∧
      (∀ v, v ∈ (remove_dominated_vertex path4).verts ↔ v ∈ path4.verts ∧ v ≠ x) ∧
      (remove_dominated_vertex path4).adj = path4.adj) ∧
    (find_dominated_vertex path4 = none → remove_dominated_vertex path4 = path4) ∧
    (path4.verts = [] → (remove_dominated_vertex path4).verts = []) :=
  C9_remove_dominated_vertex path4 (by decide)

/-! ### The clique-graph builder -/

theorem exists_sublist_toFinset {V : Type} [DecidableEq V] :
    ∀ (l : List V) (c : Finset V), (∀ x ∈ c, x ∈ l) →
      ∃ t : List V, t.Sublist l ∧ t.toFinset = c := by
  intro l
  induction l with
  | nil =>
    intro c h
    refine ⟨[], List.Sublist.refl [], ?_⟩
    have : c = ∅ := Finset.eq_empty_of_forall_not_mem (fun x hx => by
      exact absurd (h x hx) (List.not_mem_nil x))
    rw [this]
    rfl
  | cons a l ih =>
    intro c h
    by_cases ha : a ∈ c
    · obtain ⟨t, ht, hts⟩ := ih (c.erase a) (fun x hx => by
        have hxc := Finset.mem_of_mem_erase hx
        have hxa := Finset.ne_of_mem_erase hx
        rcases List.mem_cons.mp (h x hxc) with rfl | hm
        · exact absurd rfl hxa
        · exact hm)
      refine ⟨a :: t, ht.cons₂ a, ?_⟩
      rw [List.toFinset_cons, hts, Finset.insert_erase ha]
    · obtain ⟨t, ht, hts⟩ := ih c (fun x hx => by
        rcases List.mem_cons.mp (h x hx) with rfl | hm
        · exact absurd hx ha
        · exact hm)
      exact ⟨t, ht.cons a, hts⟩

theorem mem_findCliques {V : Type} [DecidableEq V] (g : Graph V) (c : Finset V) :
    c ∈ findCliques g ↔ isMaximalClique g c := by
  unfold findCliques
  rw [List.mem_filter]
  constructor
  · rintro ⟨_, hp⟩
    exact of_decide_eq_true hp
  · intro h
    refine ⟨?_, decide_eq_true h⟩
    rw [List.mem_map]
    obtain ⟨t, ht, hts⟩ := exists_sublist_toFinset g.verts c h.2.1
    exact ⟨t, List.mem_sublists.mpr ht, hts⟩

theorem sublist_eq_filter {V : Type} [DecidableEq V] :
    ∀ {s l : List V}, s.Sublist l → l.Nodup →
      s = l.filter (fun x => decide (x ∈ s)) := by
  intro s l hsl
  induction hsl with
  | slnil => intro _; rfl
  | @cons s l a hsub ih =>
    intro hnd
    rcases List.nodup_cons.mp hnd with ⟨hal, hl⟩
    have has : a ∉ s := fun hc => hal (hsub.subset hc)
    rw [List.filter_cons]
    simp only [has, decide_eq_true_eq, if_neg]
    exact ih hl
  | @cons₂ s l a hsub ih =>
    intro hnd
    rcases List.nodup_cons.mp hnd with ⟨hal, hl⟩
    rw [List.filter_cons]
    have haa : decide (a ∈ a :: s) = true := decide_eq_true (List.mem_cons_self a s)
    simp only [haa, if_pos]
    have hcongr : l.filter (fun x => decide (x ∈ a :: s)) =
        l.filter (fun x => decide (x ∈ s)) := by
      apply List.filter_congr
      intro x hx
      have hxa : x ≠ a := fun hc => hal (hc ▸ hx)
      simp [List.mem_cons, hxa]
    rw [hcongr, ← ih hl]

theorem findCliques_nodup {V : Type} [DecidableEq V] (g : Graph V)
    (hnd : g.verts.Nodup) : (findCliques g).Nodup := by
  unfold findCliques
  apply List.Nodup.filter
  apply List.Nodup.map_on
  · intro s hs t ht heq
    rw [List.mem_sublists] at hs ht
    rw [sublist_eq_filter hs hnd, sublist_eq_filter ht hnd]
    apply List.filter_congr
    intro x _
    have : x ∈ s ↔ x ∈ t := by
      rw [← List.mem_toFinset, ← List.mem_toFinset (l := t), heq]
    simp [this]
  · exact List.nodup_sublists.mpr hnd

theorem cliqueAccum_none_eq {V : Type} :
    ∀ (l acc : List (Finset V)), cliqueAccum none l acc = some (acc ++ l) := by
  intro l
  induction l with
  | nil => intro acc; simp [cliqueAccum]
  | cons q rest ih =>
    intro acc
    show cliqueAccum none rest (acc ++ [q]) = some (acc ++ q :: rest)
    rw [ih]
    simp

theorem cliqueAccum_some_eq {V : Type} :
    ∀ (b : Option Nat) (l acc cs : List (Finset V)),
      cliqueAccum b l acc = some cs → cs = acc ++ l := by
  intro b l
  induction l with
  | nil =>
    intro acc cs h
    simp [cliqueAccum] at h
    simp [← h]
  | cons q rest ih =>
    intro acc cs h
    unfold cliqueAccum at h
    by_cases hb : boundHit b (acc ++ [q]).length = true
    · rw [if_pos hb] at h
      cases h
    · rw [if_neg hb] at h
      have := ih _ _ h
      simp [this]

theorem cliqueAccum_abort_iff {V : Type} :
    ∀ (b : Nat) (l acc : List (Finset V)), acc.length ≤ b →
      (cliqueAccum (some b) l acc = none ↔ b < acc.length + l.length) := by
  intro b l
  induction l with
  | nil =>
    intro acc hle
    simp [cliqueAccum]
    omega
  | cons q rest ih =>
    intro acc hle
    show (if boundHit (some b) (acc ++ [q]).length then none
          else cliqueAccum (some b) rest (acc ++ [q])) = none ↔ _
    by_cases hb : b < acc.length + 1
    · have : boundHit (some b) (acc ++ [q]).length = true := by
        simp [boundHit, List.length_append]
        omega
      rw [if_pos this]
      simp [List.length_cons]
      omega
    · have hbf : boundHit (some b) (acc ++ [q]).length = false := by
        simp [boundHit, List.length_append]
        omega
      rw [if_neg (by rw [hbf]; exact Bool.false_ne_true)]
      rw [ih (acc ++ [q]) (by simp [List.length_append]; omega)]
      simp [List.length_append, List.length_cons]
      omega

theorem cliqueAccum_complete {V : Type} :
    ∀ (b : Nat) (l acc : List (Finset V)), acc.length + l.length ≤ b →
      cliqueAccum (some b) l acc = some (acc ++ l) := by
  intro b l
  induction l with
  | nil =>
    intro acc _
    simp [cliqueAccum]
  | cons q rest ih =>
    intro acc hle
    show (if boundHit (some b) (acc ++ [q]).length then none
          else cliqueAccum (some b) rest (acc ++ [q])) = some (acc ++ q :: rest)
    have hbf : boundHit (some b) (acc ++ [q]).length = false := by
      simp only [List.length_cons] at hle
      simp [boundHit, List.length_append]
      omega
    rw [if_neg (by rw [hbf]; exact Bool.false_ne_true)]
    rw [ih (acc ++ [q]) (by simp [List.length_append, List.length_cons] at hle ⊢; omega)]
    simp

theorem clique_graph_some {V : Type} [DecidableEq V] (g : Graph V) (b : Option Nat)
    (K : Graph (Finset V)) (h : clique_graph g b = some K) :
    K.verts = findCliques g ∧
    K.adj = fun c1 c2 => decide (c1 ≠ c2) && decide ((c1 ∩ c2).Nonempty) := by
  unfold clique_graph at h
  cases hacc : cliqueAccum b (findCliques g) [] with
  | none =>
    rw [hacc] at h
    cases h
  | some cs =>
    rw [hacc] at h
    have hcs : cs = findCliques g := by
      have := cliqueAccum_some_eq b (findCliques g) [] cs hacc
      simpa using this
    cases h
    exact ⟨hcs, rfl⟩

/-- Claim C2: whenever `clique_graph` does not abort, the vertices of the
returned graph are exactly the maximal cliques of the input graph, and
two distinct clique-vertices are adjacent exactly when the cliques share
a vertex. -/
theorem C2_clique_graph_correct {V : Type} [DecidableEq V] (g : Graph V)
    (b : Option Nat) (K : Graph (Finset V)) (h : clique_graph g b = some K) :
    (∀ q, q ∈ K.verts ↔ isMaximalClique g q) ∧
    (∀ q1 ∈ K.verts, ∀ q2 ∈ K.verts, q1 ≠ q2 →
      (K.adj q1 q2 = true ↔ (q1 ∩ q2).Nonempty)) := by
  obtain ⟨hv, ha⟩ := clique_graph_some g b K h
  constructor
  · intro q
    rw [hv]
    exact mem_findCliques g q
  · intro q1 _ q2 _ hne
    rw [ha]
    simp [hne]

theorem C2_clique_graph_correct_witness :
    (∀ q, q ∈ kp3.verts ↔ isMaximalClique path3 q) ∧
    (∀ q1 ∈ kp3.verts, ∀ q2 ∈ kp3.verts, q1 ≠ q2 →
      (kp3.adj q1 q2 = true ↔ (q1 ∩ q2).Nonempty)) :=
  C2_clique_graph_correct path3 none kp3 rfl

/-- Claim C3: with a finite bound `b`, `clique_graph` aborts exactly when
the number of maximal cliques exceeds `b` (a count equal to `b`
succeeds), and whenever the count is at most `b` the bounded call returns
the same graph as the unbounded one.  The enumeration counted here lists
each maximal clique exactly once. -/
theorem C3_clique_graph_bound {V : Type} [DecidableEq V] (g : Graph V) (b : Nat) :
    (clique_graph g (some b) = none ↔ b < (findCliques g).length) ∧
    ((findCliques g).length ≤ b → clique_graph g (some b) = clique_graph g none) ∧
    ((findCliques g).length = b → (clique_graph g (some b)).isSome = true) ∧
    (g.verts.Nodup → (findCliques g).Nodup) ∧
    (∀ c, c ∈ findCliques g ↔ isMaximalClique g c) := by
  refine ⟨?_, ?_, ?_, findCliques_nodup g, mem_findCliques g⟩
  · unfold clique_graph
    cases hacc : cliqueAccum (some b) (findCliques g) [] with
    | none =>
      constructor
      · intro _
        have := (cliqueAccum_abort_iff b (findCliques g) [] (Nat.zero_le b)).mp hacc
        simpa using this
      · intro _
        rfl
    | some cs =>
      constructor
      · intro h
        cases h
      · intro hlt
        exfalso
        have hn : cliqueAccum (some b) (findCliques g) [] = none := by
          rw [cliqueAccum_abort_iff b (findCliques g) [] (Nat.zero_le b)]
          simpa using hlt
        rw [hn] at hacc
        cases hacc
  · intro hle
    unfold clique_graph
    rw [cliqueAccum_none_eq, cliqueAccum_complete b (findCliques g) [] (by simpa using hle)]
  · intro heq
    unfold clique_graph
    rw [cliqueAccum_complete b (findCliques g) []
      (by simp only [List.length_nil, Nat.zero_add]; exact Nat.le_of_eq heq)]
    rfl

theorem C3_clique_graph_bound_witness :
    clique_graph cycle4 (some 4) = clique_graph cycle4 none ∧
    clique_graph cycle4 (some 2) = none :=
  ⟨(C3_clique_graph_bound cycle4 4).2.1 (by decide),
   (C3_clique_graph_bound cycle4 2).1.mpr (by decide)⟩

/-! ### The coaffination filter -/

theorem distAtLeast_iff {V : Type} [DecidableEq V] (g : Graph V) (k : Nat)
    (f : V → V) (v : V) :
    distAtLeast g k f v = true ↔ ∃ d, dist g v (f v) = some d ∧ k ≤ d := by
  unfold distAtLeast
  cases hd : dist g v (f v) with
  | none => simp
  | some d =>
    simp only [decide_eq_true_eq]
    constructor
    · intro h
      exact ⟨d, rfl, h⟩
    · rintro ⟨d2, hd2, hk⟩
      cases hd2
      exact hk

theorem checkAuto_ok {V : Type} [DecidableEq V] (g : Graph V) (k : Nat) (f : V → V) :
    ∀ (l : List V), (∀ v ∈ l, (dist g v (f v)).isSome = true) →
      checkAuto g k f l = Except.ok (l.all (distAtLeast g k f)) := by
  intro l
  induction l with
  | nil => intro _; rfl
  | cons v rest ih =>
    intro h
    have hv := h v (List.mem_cons_self v rest)
    cases hd : dist g v (f v) with
    | none =>
      rw [hd] at hv
      cases hv
    | some d =>
      show (match dist g v (f v) with
            | none => Except.error ()
            | some d => if d < k then Except.ok false else checkAuto g k f rest) = _
      rw [hd]
      show (if d < k then Except.ok false else checkAuto g k f rest) =
        Except.ok ((v :: rest).all (distAtLeast g k f))
      rw [List.all_cons]
      by_cases hdk : d < k
      · rw [if_pos hdk]
        have hfalse : distAtLeast g k f v = false := by
          unfold distAtLeast
          rw [hd]
          exact decide_eq_false (by omega)
        rw [hfalse]
        rfl
      · rw [if_neg hdk]
        have htrue : distAtLeast g k f v = true := by
          unfold distAtLeast
          rw [hd]
          exact decide_eq_true (by omega)
        rw [htrue, Bool.true_and]
        exact ih (fun u hu => h u (List.mem_cons_of_mem v hu))

theorem coaffinationsL_ok {V : Type} [DecidableEq V] (g : Graph V) (k : Nat) :
    ∀ (autos : List (V → V)),
      (∀ f ∈ autos, ∀ v ∈ g.verts, (dist g v (f v)).isSome = true) →
      coaffinationsL g k autos = Except.ok (autos.filter (qualifies g k)) := by
  intro autos
  induction autos with
  | nil => intro _; rfl
  | cons f rest ih =>
    intro h
    have hf : checkAuto g k f g.verts = Except.ok (qualifies g k f) :=
      checkAuto_ok g k f g.verts (h f (List.mem_cons_self f rest))
    have hrest := ih (fun f2 hf2 => h f2 (List.mem_cons_of_mem f hf2))
    show (match checkAuto g k f g.verts with
          | Except.error e => Except.error e
          | Except.ok false => coaffinationsL g k rest
          | Except.ok true =>
            match coaffinationsL g k rest with
            | Except.error e => Except.error e
            | Except.ok l => Except.ok (f :: l)) = _
    rw [hf]
    cases hq : qualifies g k f with
    | false =>
      rw [hrest, List.filter_cons_of_neg (by rw [hq]; exact Bool.false_ne_true)]
    | true =>
      rw [hrest, List.filter_cons_of_pos (by rw [hq])]

/-- Claim C5: `coaffinations(graph, k)` is a pure filter over the
automorphism sequence: when every distance lookup it performs is present,
it returns exactly the automorphisms displacing every vertex by at least
`k`, in the original order, none repeated and none reordered, and the
qualifying test is precisely the per-vertex distance condition. -/
theorem C5_coaffinations_filter {V : Type} [DecidableEq V] (g : Graph V) (k : Nat)
    (autos : List (V → V))
    (h : ∀ f ∈ autos, ∀ v ∈ g.verts, (dist g v (f v)).isSome = true) :
    coaffinationsL g k autos = Except.ok (autos.filter (qualifies g k)) ∧
    (∀ f : V → V, qualifies g k f = true ↔
      ∀ v ∈ g.verts, ∃ d, dist g v (f v) = some d ∧ k ≤ d) := by
  refine ⟨coaffinationsL_ok g k autos h, ?_⟩
  intro f
  unfold qualifies
  rw [List.all_eq_true]
  constructor
  · intro hall v hv
    exact (distAtLeast_iff g k f v).mp (hall v hv)
  · intro hall v hv
    exact (distAtLeast_iff g k f v).mpr (hall v hv)

theorem C5_coaffinations_filter_witness :
    coaffinationsL cycle4 2 [rot2] =
      Except.ok ([rot2].filter (qualifies cycle4 2)) ∧
    (∀ f : Nat → Nat, qualifies cycle4 2 f = true ↔
      ∀ v ∈ cycle4.verts, ∃ d, dist cycle4 v (f v) = some d ∧ 2 ≤ d) :=
  C5_coaffinations_filter cycle4 2 [rot2] (by
    intro f hf
    rw [List.mem_singleton] at hf
    subst hf
    decide)

theorem dist_isSome_of_connected {V : Type} [DecidableEq V] (g : Graph V)
    (hc : connectedG g) (v w : V) (hv : v ∈ g.verts) (hw : w ∈ g.verts) :
    (dist g v w).isSome = true := by
  unfold dist
  exact List.find?_isSome.mpr
    ⟨g.order, List.mem_range.mpr (by omega), decide_eq_true (hc v hv w hw)⟩

/-- Claim C10: on a connected graph, every distance lookup performed while
consuming `coaffinations(graph, k)` finds a present key (any automorphism
maps vertices to vertices), so the missing-key error branch is
unreachable and the filter completes normally. -/
theorem C10_coaffinations_connected_safe {V : Type} [DecidableEq V] (g : Graph V)
    (k : Nat) (autos : List (V → V)) (hc : connectedG g)
    (him : ∀ f ∈ autos, ∀ v ∈ g.verts, f v ∈ g.verts) :
    coaffinationsL g k autos = Except.ok (autos.filter (qualifies g k)) :=
  coaffinationsL_ok g k autos (fun f hf v hv =>
    dist_isSome_of_connected g hc v (f v) hv (him f hf v hv))

theorem C10_coaffinations_connected_safe_witness :
    coaffinationsL cycle4 3 [rot2] = Except.ok ([rot2].filter (qualifies cycle4 3)) :=
  C10_coaffinations_connected_safe cycle4 3 [rot2] (by decide) (by
    intro f hf
    rw [List.mem_singleton] at hf
    subst hf
    decide)

/-! ### The coaffination propagator: transport of an automorphism -/

theorem clique_graph_pair_some {V : Type} [DecidableEq V] (p : CoaffinePair V)
    (b : Option Nat) (kp : CoaffinePair (Finset V))
    (h : clique_graph_pair p b = some kp) :
    clique_graph p.graph b = some kp.graph ∧
    kp.coaffination = fun q => q.image p.coaffination := by
  unfold clique_graph_pair at h
  cases hk : clique_graph p.graph b with
  | none =>
    rw [hk] at h
    cases h
  | some kg =>
    rw [hk] at h
    cases h
    exact ⟨rfl, rfl⟩

theorem image_isMaximalClique {V : Type} [DecidableEq V] (g : Graph V) (f : V → V)
    (hf : isAutomorphism g f) (c : Finset V) (hc : isMaximalClique g c) :
    isMaximalClique g (c.image f) := by
  obtain ⟨hmap, hinj, hsurj, hadj⟩ := hf
  obtain ⟨hne, hsub, hcl, hmax⟩ := hc
  refine ⟨hne.image f, ?_, ?_, ?_⟩
  · intro w hw
    obtain ⟨u, hu, rfl⟩ := Finset.mem_image.mp hw
    exact hmap u (hsub u hu)
  · intro x hx y hy hxy
    obtain ⟨u, hu, rfl⟩ := Finset.mem_image.mp hx
    obtain ⟨w, hw, rfl⟩ := Finset.mem_image.mp hy
    have huw : u ≠ w := fun hh => hxy (by rw [hh])
    have h1 := hcl u hu w hw huw
    rw [hadj u (hsub u hu) w (hsub w hw)] at h1
    exact h1
  · intro w hw hwc hclique
    obtain ⟨x, hx, rfl⟩ := hsurj w hw
    have hxc : x ∉ c := fun hmem => hwc (Finset.mem_image_of_mem f hmem)
    apply hmax x hx hxc
    intro u hu v hv huv
    rcases Finset.mem_insert.mp hu with hux | hu2
    · rcases Finset.mem_insert.mp hv with hvx | hv2
      · exact absurd (hux.trans hvx.symm) huv
      · subst hux
        have hfne : f u ≠ f v := by
          intro hh
          exact hxc ((hinj u hx v (hsub v hv2) hh) ▸ hv2)
        have h2 := hclique (f u) (Finset.mem_insert_self _ _) (f v)
          (Finset.mem_insert_of_mem (Finset.mem_image_of_mem f hv2)) hfne
        rw [hadj u hx v (hsub v hv2)]
        exact h2
    · rcases Finset.mem_insert.mp hv with hvx | hv2
      · subst hvx
        have hfne : f u ≠ f v := by
          intro hh
          exact hxc ((hinj v hx u (hsub u hu2) hh.symm) ▸ hu2)
        have h2 := hclique (f u)
          (Finset.mem_insert_of_mem (Finset.mem_image_of_mem f hu2)) (f v)
          (Finset.mem_insert_self _ _) hfne
        rw [hadj u (hsub u hu2) v hx]
        exact h2
      · have h2 := hcl u hu2 v hv2 huv
        exact h2

theorem image_inj_on_vertexSets {V : Type} [DecidableEq V] (g : Graph V) (f : V → V)
    (hf : isAutomorphism g f) (c1 c2 : Finset V)
    (h1 : ∀ v ∈ c1, v ∈ g.verts) (h2 : ∀ v ∈ c2, v ∈ g.verts)
    (heq : c1.image f = c2.image f) : c1 = c2 := by
  ext a
  constructor
  · intro ha
    have hfa : f a ∈ c2.image f := heq ▸ Finset.mem_image_of_mem f ha
    obtain ⟨b2, hb2, hba⟩ := Finset.mem_image.mp hfa
    exact (hf.2.1 b2 (h2 b2 hb2) a (h1 a ha) hba) ▸ hb2
  · intro ha
    have hfa : f a ∈ c1.image f := heq.symm ▸ Finset.mem_image_of_mem f ha
    obtain ⟨b2, hb2, hba⟩ := Finset.mem_image.mp hfa
    exact (hf.2.1 b2 (h1 b2 hb2) a (h2 a ha) hba) ▸ hb2

theorem preimage_isMaximalClique {V : Type} [DecidableEq V] (g : Graph V) (f : V → V)
    (hf : isAutomorphism g f) (r : Finset V) (hr : isMaximalClique g r) :
    ∃ c : Finset V, isMaximalClique g c ∧ c.image f = r := by
  obtain ⟨hmap, hinj, hsurj, hadj⟩ := hf
  obtain ⟨hne, hsub, hcl, hmax⟩ := hr
  have hmemc : ∀ v, v ∈ g.verts.toFinset.filter (fun v => f v ∈ r) ↔
      (v ∈ g.verts ∧ f v ∈ r) := by
    intro v
    rw [Finset.mem_filter, List.mem_toFinset]
  have himg : (g.verts.toFinset.filter (fun v => f v ∈ r)).image f = r := by
    ext w
    constructor
    · intro hw
      obtain ⟨v, hv, rfl⟩ := Finset.mem_image.mp hw
      exact ((hmemc v).mp hv).2
    · intro hw
      obtain ⟨v, hv, rfl⟩ := hsurj w (hsub w hw)
      exact Finset.mem_image_of_mem f ((hmemc v).mpr ⟨hv, hw⟩)
  refine ⟨g.verts.toFinset.filter (fun v => f v ∈ r), ⟨?_, ?_, ?_, ?_⟩, himg⟩
  · obtain ⟨w, hw⟩ := hne
    have hw2 : w ∈ (g.verts.toFinset.filter (fun v => f v ∈ r)).image f := himg.symm ▸ hw
    obtain ⟨v, hv, _⟩ := Finset.mem_image.mp hw2
    exact ⟨v, hv⟩
  · intro v hv
    exact ((hmemc v).mp hv).1
  · intro u hu v hv huv
    have hu2 := (hmemc u).mp hu
    have hv2 := (hmemc v).mp hv
    have hfne : f u ≠ f v := fun hh => huv (hinj u hu2.1 v hv2.1 hh)
    have h3 := hcl (f u) hu2.2 (f v) hv2.2 hfne
    rw [hadj u hu2.1 v hv2.1]
    exact h3
  · intro x hx hxc hcli
    have hfxr : f x ∉ r := fun hh => hxc ((hmemc x).mpr ⟨hx, hh⟩)
    apply hmax (f x) (hmap x hx) hfxr
    intro a ha b hb hab
    rcases Finset.mem_insert.mp ha with hax | ha2
    · rcases Finset.mem_insert.mp hb with hbx | hb2
      · exact absurd (hax.trans hbx.symm) hab
      · subst hax
        have hb3 : b ∈ (g.verts.toFinset.filter (fun v => f v ∈ r)).image f :=
          himg.symm ▸ hb2
        obtain ⟨v, hv, rfl⟩ := Finset.mem_image.mp hb3
        have hvc := (hmemc v).mp hv
        have hxv : x ≠ v := fun hh => hxc (hh ▸ hv)
        have h4 := hcli x (Finset.mem_insert_self _ _)
          v (Finset.mem_insert_of_mem hv) hxv
        rw [← hadj x hx v hvc.1]
        exact h4
    · rcases Finset.mem_insert.mp hb with hbx | hb2
      · subst hbx
        have ha3 : a ∈ (g.verts.toFinset.filter (fun v => f v ∈ r)).image f :=
          himg.symm ▸ ha2
        obtain ⟨v, hv, rfl⟩ := Finset.mem_image.mp ha3
        have hvc := (hmemc v).mp hv
        have hvx : v ≠ x := fun hh => hxc (hh ▸ hv)
        have h4 := hcli v (Finset.mem_insert_of_mem hv)
          x (Finset.mem_insert_self _ _) hvx
        rw [← hadj v hvc.1 x hx]
        exact h4
      · exact hcl a ha2 b hb2 hab

theorem clique_graph_automorphism {V : Type} [DecidableEq V] (g : Graph V)
    (f : V → V) (b : Option Nat) (K : Graph (Finset V)) (hf : isAutomorphism g f)
    (h : clique_graph g b = some K) :
    isAutomorphism K (fun q => q.image f) := by
  obtain ⟨hv, ha⟩ := clique_graph_some g b K h
  have hmemK : ∀ q, q ∈ K.verts ↔ isMaximalClique g q := by
    intro q
    rw [hv]
    exact mem_findCliques g q
  refine ⟨?_, ?_, ?_, ?_⟩
  · intro q hq
    exact (hmemK _).mpr (image_isMaximalClique g f hf q ((hmemK q).mp hq))
  · intro q1 hq1 q2 hq2 heq
    exact image_inj_on_vertexSets g f hf q1 q2
      ((hmemK q1).mp hq1).2.1 ((hmemK q2).mp hq2).2.1 heq
  · intro r hr
    obtain ⟨c, hcmax, hcimg⟩ := preimage_isMaximalClique g f hf r ((hmemK r).mp hr)
    exact ⟨c, (hmemK c).mpr hcmax, hcimg⟩
  · intro q1 hq1 q2 hq2
    have h1 := ((hmemK q1).mp hq1).2.1
    have h2 := ((hmemK q2).mp hq2).2.1
    rw [ha]
    show (decide (q1 ≠ q2) && decide ((q1 ∩ q2).Nonempty)) =
      (decide (q1.image f ≠ q2.image f) &&
       decide ((q1.image f ∩ q2.image f).Nonempty))
    have hiff1 : q1 ≠ q2 ↔ q1.image f ≠ q2.image f := by
      constructor
      · intro hne heq
        exact hne (image_inj_on_vertexSets g f hf q1 q2 h1 h2 heq)
      · intro hne heq
        exact hne (by rw [heq])
    have hiff2 : (q1 ∩ q2).Nonempty ↔ (q1.image f ∩ q2.image f).Nonempty := by
      constructor
      · rintro ⟨a, haa⟩
        rcases Finset.mem_inter.mp haa with ⟨ha1, ha2⟩
        exact ⟨f a, Finset.mem_inter.mpr
          ⟨Finset.mem_image_of_mem f ha1, Finset.mem_image_of_mem f ha2⟩⟩
      · rintro ⟨w, hww⟩
        rcases Finset.mem_inter.mp hww with ⟨hw1, hw2⟩
        obtain ⟨a, ha1, rfl⟩ := Finset.mem_image.mp hw1
        obtain ⟨b2, hb2, hba⟩ := Finset.mem_image.mp hw2
        have hb2a : b2 = a := hf.2.1 b2 (h2 b2 hb2) a (h1 a ha1) hba
        exact ⟨a, Finset.mem_inter.mpr ⟨ha1, hb2a ▸ hb2⟩⟩
    rw [decide_eq_decide.mpr hiff1, decide_eq_decide.mpr hiff2]

/-- Claim C4: for a `CoaffinePair` whose mapping is an automorphism of its
graph, when the clique graph does not abort, the induced mapping (each
clique sent to the clique of vertex-wise images) is an automorphism of
the derived clique graph; for the 4-cycle with the automorphism
{0→2, 1→3, 2→0, 3→1} the derived pair has 4 clique-vertices and its
induced mapping sends adjacent pairs to adjacent pairs. -/
theorem C4_coaffine_pair_automorphism {V : Type} [DecidableEq V] (p : CoaffinePair V)
    (b : Option Nat) (kp : CoaffinePair (Finset V))
    (hauto : isAutomorphism p.graph p.coaffination)
    (h : clique_graph_pair p b = some kp) :
    isAutomorphism kp.graph kp.coaffination ∧
    k4pair.graph.order = 4 ∧
    (∀ q1 ∈ k4pair.graph.verts, ∀ q2 ∈ k4pair.graph.verts,
      k4pair.graph.adj q1 q2 = true →
      k4pair.graph.adj (k4pair.coaffination q1) (k4pair.coaffination q2) = true) := by
  obtain ⟨hk, hco⟩ := clique_graph_pair_some p b kp h
  refine ⟨?_, by decide, by decide⟩
  rw [hco]
  exact clique_graph_automorphism p.graph p.coaffination b kp.graph hauto hk

theorem C4_coaffine_pair_automorphism_witness :
    isAutomorphism k4pair.graph k4pair.coaffination :=
  (C4_coaffine_pair_automorphism c4pair none k4pair (by decide) (by rfl)).1

end Pyc
